import Mathlib

/-!
Verification of an LRU (least-recently-used) cache.

The cache is a structure with a fixed `size`, a key-value map
`cache_content` (a `HashMap` in the source, modelled here as an
association list whose key set is kept duplicate-free by the
operations), and a recency sequence `cache_order` (a `VecDeque` in the
source, modelled as a list whose head is the front of the deque).

The three operations `put`, `get` and `move_key_end_cache` are direct
translations of the corresponding source functions.
-/

set_option autoImplicit false

namespace LruCache

variable {K V : Type} [DecidableEq K]

/-- The cache record: fixed size, content map, recency order
(head of `cache_order` = front of the deque = least recently used). -/
structure Cache (K V : Type) where
  size : Nat
  cache_content : List (K × V)
  cache_order : List K
  deriving Repr, DecidableEq

/-- The list of keys of an association list. -/
def keysOf (m : List (K × V)) : List K :=
  m.map Prod.fst

/-- `HashMap::get` on the association-list model: the value stored at
the first pair whose key matches. -/
def lookupKey (m : List (K × V)) (k : K) : Option V :=
  match m with
  | [] => none
  | (k', v) :: rest => if k' = k then some v else lookupKey rest k

/-- `HashMap::remove`: drop every pair whose key is `k` (on a
duplicate-free association list this removes at most one pair). -/
def removeKey (m : List (K × V)) (k : K) : List (K × V) :=
  m.filter (fun p => decide (p.1 ≠ k))

/-- `HashMap::insert`: overwrite the binding of `k` if present,
otherwise add it.  Modelled as remove-then-append, which keeps the
key set duplicate-free and puts no constraint on map order. -/
def insertKV (m : List (K × V)) (k : K) (v : V) : List (K × V) :=
  removeKey m k ++ [(k, v)]

/-- `HashMap::contains_key`. -/
def containsKey (m : List (K × V)) (k : K) : Bool :=
  (lookupKey m k).isSome

/-- `Cache::new(size)`: empty content and order, the given size. -/
def Cache.new (K V : Type) (size : Nat) : Cache K V :=
  { size := size, cache_content := [], cache_order := [] }

/-- `move_key_end_cache`: `cache_order.retain(|k| k != key)` followed by
`cache_order.push_back(key.clone())`. -/
def move_key_end_cache (c : Cache K V) (key : K) : Cache K V :=
  { c with cache_order := c.cache_order.filter (fun k => decide (k ≠ key)) ++ [key] }

/-- `put`: update-and-promote when the key is present; otherwise evict
the front of the order (when `cache_order.len() >= size` and the deque
is nonempty) and append the new pair. -/
def put (c : Cache K V) (key : K) (value : V) : Cache K V :=
  if containsKey c.cache_content key then
    move_key_end_cache
      { c with cache_content := insertKV c.cache_content key value } key
  else
    let c1 :=
      if c.cache_order.length ≥ c.size then
        match c.cache_order with
        | [] => c
        | cle_supprime :: rest =>
            { c with
              cache_order := rest,
              cache_content := removeKey c.cache_content cle_supprime }
      else c
    { c1 with
      cache_order := c1.cache_order ++ [key],
      cache_content := insertKV c1.cache_content key value }

/-- `get`: on a hit, promote the key and return its value; on a miss,
return `none` and leave the cache unchanged.  Returns the value
together with the updated cache (the source mutates `self`). -/
def get (c : Cache K V) (key : K) : Option V × Cache K V :=
  if containsKey c.cache_content key then
    let c' := move_key_end_cache c key
    (lookupKey c'.cache_content key, c')
  else
    (none, c)

/-- A call against the cache: the two public operations. -/
inductive Op (K V : Type) where
  | put (key : K) (value : V)
  | get (key : K)

/-- Apply one call to the cache state. -/
def applyOp (c : Cache K V) : Op K V → Cache K V
  | Op.put k v => put c k v
  | Op.get k => (get c k).2

/-- Run a sequence of calls from a given state. -/
def run (c : Cache K V) (ops : List (Op K V)) : Cache K V :=
  ops.foldl applyOp c

/-- Run a sequence of `put` calls from a given state. -/
def putSeq (c : Cache K V) (l : List (K × V)) : Cache K V :=
  l.foldl (fun c p => put c p.1 p.2) c

/-! ### Basic lemmas about the association-list map -/

theorem mem_keysOf {m : List (K × V)} {k : K} :
    k ∈ keysOf m ↔ ∃ v, (k, v) ∈ m := by
  constructor
  · intro h
    rcases List.mem_map.mp h with ⟨⟨a, b⟩, hab, hfst⟩
    exact ⟨b, by simpa [← hfst] using hab⟩
  · rintro ⟨v, hv⟩
    exact List.mem_map.mpr ⟨(k, v), hv, rfl⟩

theorem lookupKey_eq_none {m : List (K × V)} {k : K} :
    lookupKey m k = none ↔ k ∉ keysOf m := by
  induction m with
  | nil => simp [lookupKey, keysOf]
  | cons p rest ih =>
    obtain ⟨k', v⟩ := p
    by_cases h : k' = k
    · subst h
      simp [lookupKey, keysOf]
    · simp [lookupKey, h, ih, keysOf, Ne.symm h]

theorem lookupKey_isSome {m : List (K × V)} {k : K} :
    (lookupKey m k).isSome = true ↔ k ∈ keysOf m := by
  cases hlk : lookupKey m k with
  | none =>
    simp only [Option.isSome_none, Bool.false_eq_true, false_iff]
    exact lookupKey_eq_none.mp hlk
  | some w =>
    simp only [Option.isSome_some, true_iff]
    by_contra hmem
    rw [lookupKey_eq_none.mpr hmem] at hlk
    exact Option.noConfusion hlk

theorem containsKey_iff_mem {m : List (K × V)} {k : K} :
    containsKey m k = true ↔ k ∈ keysOf m := by
  simp [containsKey, lookupKey_isSome]

theorem containsKey_false_iff {m : List (K × V)} {k : K} :
    containsKey m k = false ↔ k ∉ keysOf m := by
  rw [← Bool.not_eq_true, not_iff_not]
  exact containsKey_iff_mem

theorem keysOf_removeKey (m : List (K × V)) (k : K) :
    keysOf (removeKey m k) = (keysOf m).filter (fun x => decide (x ≠ k)) := by
  induction m with
  | nil => rfl
  | cons p rest ih =>
    by_cases h : p.1 = k <;> simp [removeKey, keysOf, h, List.filter] at * <;>
      simpa [removeKey, keysOf] using ih

theorem mem_keysOf_removeKey {m : List (K × V)} {k k' : K} :
    k' ∈ keysOf (removeKey m k) ↔ k' ∈ keysOf m ∧ k' ≠ k := by
  rw [keysOf_removeKey]
  simp [List.mem_filter]

theorem keysOf_append (a b : List (K × V)) :
    keysOf (a ++ b) = keysOf a ++ keysOf b := by
  simp [keysOf]

theorem mem_keysOf_insertKV {m : List (K × V)} {k k' : K} {v : V} :
    k' ∈ keysOf (insertKV m k v) ↔ k' = k ∨ k' ∈ keysOf m := by
  unfold insertKV
  rw [keysOf_append, List.mem_append, mem_keysOf_removeKey]
  by_cases h : k' = k <;> simp [keysOf, h]

theorem lookupKey_append_left {a b : List (K × V)} {k : K} {v : V}
    (h : lookupKey a k = some v) : lookupKey (a ++ b) k = some v := by
  induction a with
  | nil => simp [lookupKey] at h
  | cons p rest ih =>
    by_cases hp : p.1 = k
    · obtain ⟨k', v'⟩ := p
      simp_all [lookupKey]
    · obtain ⟨k', v'⟩ := p
      simp only [lookupKey] at h ⊢
      simp only [hp] at h ⊢
      simp_all [lookupKey, hp]

theorem lookupKey_append_right {a b : List (K × V)} {k : K}
    (h : lookupKey a k = none) : lookupKey (a ++ b) k = lookupKey b k := by
  induction a with
  | nil => simp
  | cons p rest ih =>
    obtain ⟨k', v'⟩ := p
    by_cases hp : k' = k <;> simp_all [lookupKey, hp]

theorem lookupKey_removeKey_self (m : List (K × V)) (k : K) :
    lookupKey (removeKey m k) k = none := by
  rw [lookupKey_eq_none, mem_keysOf_removeKey]
  simp

theorem lookupKey_removeKey_ne {m : List (K × V)} {k k' : K} (h : k' ≠ k) :
    lookupKey (removeKey m k) k' = lookupKey m k' := by
  induction m with
  | nil => rfl
  | cons p rest ih =>
    obtain ⟨a, b⟩ := p
    by_cases ha : a = k
    · subst ha
      have : a ≠ k' := fun hh => h hh.symm
      simp [removeKey, lookupKey, this, List.filter] at *
      simpa [removeKey] using ih
    · by_cases ha' : a = k'
      · subst ha'
        simp [removeKey, lookupKey, ha, List.filter]
      · simp [removeKey, lookupKey, ha, ha', List.filter] at *
        simpa [removeKey] using ih

theorem lookupKey_insertKV_self (m : List (K × V)) (k : K) (v : V) :
    lookupKey (insertKV m k v) k = some v := by
  unfold insertKV
  rw [lookupKey_append_right (lookupKey_removeKey_self m k)]
  simp [lookupKey]

theorem lookupKey_insertKV_ne {m : List (K × V)} {k k' : K} {v : V} (h : k' ≠ k) :
    lookupKey (insertKV m k v) k' = lookupKey m k' := by
  unfold insertKV
  cases hlk : lookupKey (removeKey m k) k' with
  | none =>
    rw [lookupKey_append_right hlk]
    simp [lookupKey, Ne.symm h]
    rw [← lookupKey_removeKey_ne h, hlk]
  | some w =>
    rw [lookupKey_append_left hlk, ← lookupKey_removeKey_ne (m := m) h, hlk]

theorem removeKey_eq_self {m : List (K × V)} {k : K} (h : k ∉ keysOf m) :
    removeKey m k = m := by
  apply List.filter_eq_self.mpr
  intro p hp
  simp only [decide_eq_true_eq]
  intro hpk
  exact h (List.mem_map.mpr ⟨p, hp, hpk⟩)

theorem insertKV_fresh {m : List (K × V)} {k : K} (v : V)
    (h : k ∉ keysOf m) : insertKV m k v = m ++ [(k, v)] := by
  unfold insertKV
  rw [removeKey_eq_self h]

theorem nodup_keysOf_removeKey {m : List (K × V)} (k : K)
    (h : (keysOf m).Nodup) : (keysOf (removeKey m k)).Nodup := by
  rw [keysOf_removeKey]
  exact h.filter _

theorem nodup_keysOf_insertKV {m : List (K × V)} (k : K) (v : V)
    (h : (keysOf m).Nodup) : (keysOf (insertKV m k v)).Nodup := by
  unfold insertKV
  rw [keysOf_append, keysOf_removeKey]
  refine (h.filter _).append (List.nodup_singleton k) ?_
  intro a ha hb
  rw [List.mem_filter, decide_eq_true_eq] at ha
  rw [keysOf, List.map_singleton, List.mem_singleton] at hb
  exact ha.2 hb

theorem length_filter_ne_of_nodup {l : List K} {key : K}
    (hnd : l.Nodup) (hmem : key ∈ l) :
    (l.filter (fun k => decide (k ≠ key))).length + 1 = l.length := by
  induction l with
  | nil => cases hmem
  | cons a rest ih =>
    rcases List.mem_cons.mp hmem with rfl | hmem'
    · have hkey : key ∉ rest := (List.nodup_cons.mp hnd).1
      have hrest : List.filter (fun k => decide (k ≠ key)) rest = rest := by
        apply List.filter_eq_self.mpr
        intro b hb
        simp only [decide_eq_true_eq]
        exact fun hbk => hkey (hbk ▸ hb)
      simp [List.filter_cons, hrest]
      intro b hb hbk
      exact hkey (hbk ▸ hb)
    · have hane : a ≠ key := fun h => (List.nodup_cons.mp hnd).1 (h ▸ hmem')
      have ihh := ih (List.nodup_cons.mp hnd).2 hmem'
      simp only [decide_not] at ihh
      simp [List.filter_cons, hane]
      omega

theorem length_removeKey_of_mem {m : List (K × V)} {k : K}
    (hnd : (keysOf m).Nodup) (hmem : k ∈ keysOf m) :
    (removeKey m k).length + 1 = m.length := by
  have h1 : (removeKey m k).length = (keysOf (removeKey m k)).length :=
    (List.length_map _ _).symm
  have h2 : m.length = (keysOf m).length := (List.length_map _ _).symm
  rw [h1, h2, keysOf_removeKey]
  exact length_filter_ne_of_nodup hnd hmem

theorem lookupKey_of_mem {m : List (K × V)} {k : K} {v : V}
    (hnd : (keysOf m).Nodup) (hmem : (k, v) ∈ m) :
    lookupKey m k = some v := by
  induction m with
  | nil => cases hmem
  | cons p rest ih =>
    obtain ⟨a, b⟩ := p
    have hnd2 : (a :: keysOf rest).Nodup := hnd
    have hnd' := List.nodup_cons.mp hnd2
    rcases List.mem_cons.mp hmem with heq | hmem'
    · injection heq with h1 h2
      subst h1; subst h2
      simp [lookupKey]
    · have hk : k ∈ keysOf rest := mem_keysOf.mpr ⟨v, hmem'⟩
      have hak : a ≠ k := fun h => hnd'.1 (h ▸ hk)
      simp only [lookupKey, hak, if_false]
      exact ih hnd'.2 hmem'

/-! ### Equation lemmas for `put` and `get` -/

theorem put_existing {c : Cache K V} {key : K} (value : V)
    (hc : containsKey c.cache_content key = true) :
    put c key value =
      { c with cache_content := insertKV c.cache_content key value,
               cache_order :=
                 c.cache_order.filter (fun k => decide (k ≠ key)) ++ [key] } := by
  simp [put, move_key_end_cache, hc]

theorem put_fresh_lt {c : Cache K V} {key : K} (value : V)
    (hc : containsKey c.cache_content key = false)
    (hlen : c.cache_order.length < c.size) :
    put c key value =
      { c with cache_content := insertKV c.cache_content key value,
               cache_order := c.cache_order ++ [key] } := by
  have h2 : ¬ (c.cache_order.length ≥ c.size) := by omega
  simp [put, hc, h2]

theorem put_fresh_ge_nil {c : Cache K V} {key : K} (value : V)
    (hc : containsKey c.cache_content key = false)
    (hlen : c.cache_order.length ≥ c.size)
    (horder : c.cache_order = []) :
    put c key value =
      { c with cache_content := insertKV c.cache_content key value,
               cache_order := [key] } := by
  obtain ⟨sz, m, ord⟩ := c
  simp only at horder hc hlen
  subst horder
  simp [put, hc, hlen]

theorem put_fresh_ge_cons {c : Cache K V} {key k0 : K} {os : List K} (value : V)
    (hc : containsKey c.cache_content key = false)
    (hlen : c.cache_order.length ≥ c.size)
    (horder : c.cache_order = k0 :: os) :
    put c key value =
      { c with cache_content := insertKV (removeKey c.cache_content k0) key value,
               cache_order := os ++ [key] } := by
  obtain ⟨sz, m, ord⟩ := c
  simp only at horder hc hlen
  subst horder
  have hlen2 : sz ≤ os.length + 1 := by simpa using hlen
  simp [put, hc, hlen2]

theorem get_hit {c : Cache K V} {key : K}
    (hc : containsKey c.cache_content key = true) :
    get c key = (lookupKey c.cache_content key,
      { c with cache_order :=
          c.cache_order.filter (fun k => decide (k ≠ key)) ++ [key] }) := by
  simp [get, move_key_end_cache, hc]

theorem get_miss {c : Cache K V} {key : K}
    (hc : containsKey c.cache_content key = false) :
    get c key = (none, c) := by
  simp [get, hc]

/-! ### The reachable-state invariant -/

/-- Invariant maintained by every operation: content and order hold the
same keys, both are duplicate-free, and the order never exceeds
`max size 1` entries (for `size ≥ 1` this is the capacity bound; a
size-0 cache can hold one entry, see the capacity-0 theorems). -/
structure Inv (c : Cache K V) : Prop where
  mem_iff : ∀ k, k ∈ keysOf c.cache_content ↔ k ∈ c.cache_order
  nodup_content : (keysOf c.cache_content).Nodup
  nodup_order : c.cache_order.Nodup
  len_le : c.cache_order.length ≤ max c.size 1

theorem inv_new (size : Nat) : Inv (Cache.new K V size) := by
  constructor <;> simp [Cache.new, keysOf]

theorem inv_content_length {c : Cache K V} (h : Inv c) :
    c.cache_content.length = c.cache_order.length := by
  have hperm : List.Perm (keysOf c.cache_content) c.cache_order :=
    (List.perm_ext_iff_of_nodup h.nodup_content h.nodup_order).mpr h.mem_iff
  calc c.cache_content.length = (keysOf c.cache_content).length :=
        (List.length_map _ _).symm
    _ = c.cache_order.length := hperm.length_eq

theorem inv_move {c : Cache K V} (h : Inv c) {key : K}
    (hmem : key ∈ c.cache_order) : Inv (move_key_end_cache c key) := by
  have hflen := length_filter_ne_of_nodup h.nodup_order hmem
  constructor
  · intro k
    by_cases hk : k = key
    · subst hk
      simp [move_key_end_cache, h.mem_iff k, hmem]
    · simp [move_key_end_cache, List.mem_filter, hk, h.mem_iff k]
  · exact h.nodup_content
  · refine (h.nodup_order.filter _).append (List.nodup_singleton key) ?_
    intro a ha hb
    rw [List.mem_filter, decide_eq_true_eq] at ha
    rw [List.mem_singleton] at hb
    exact ha.2 hb
  · simp only [move_key_end_cache, List.length_append, List.length_singleton]
    have := h.len_le
    omega

theorem inv_put {c : Cache K V} (h : Inv c) (key : K) (value : V) :
    Inv (put c key value) := by
  by_cases hc : containsKey c.cache_content key = true
  · rw [put_existing value hc]
    have hkm : key ∈ keysOf c.cache_content := containsKey_iff_mem.mp hc
    have hko : key ∈ c.cache_order := (h.mem_iff key).mp hkm
    have hflen := length_filter_ne_of_nodup h.nodup_order hko
    constructor
    · intro k
      by_cases hk : k = key
      · subst hk
        simp [mem_keysOf_insertKV]
      · simp [mem_keysOf_insertKV, hk, List.mem_filter, h.mem_iff k]
    · exact nodup_keysOf_insertKV _ _ h.nodup_content
    · refine (h.nodup_order.filter _).append (List.nodup_singleton key) ?_
      intro a ha hb
      rw [List.mem_filter, decide_eq_true_eq] at ha
      rw [List.mem_singleton] at hb
      exact ha.2 hb
    · simp only [List.length_append, List.length_singleton]
      have := h.len_le
      omega
  · have hc' : containsKey c.cache_content key = false := by simpa using hc
    have hkm : key ∉ keysOf c.cache_content := containsKey_false_iff.mp hc'
    have hko : key ∉ c.cache_order := fun hh => hkm ((h.mem_iff key).mpr hh)
    by_cases hlen : c.cache_order.length ≥ c.size
    · cases horder : c.cache_order with
      | nil =>
        rw [put_fresh_ge_nil value hc' hlen horder]
        have hcontent : c.cache_content = [] := by
          cases hcc : c.cache_content with
          | nil => rfl
          | cons p rest =>
            exfalso
            have hp : p.1 ∈ keysOf c.cache_content := by
              rw [hcc]
              exact List.mem_cons_self _ _
            have hp' := (h.mem_iff p.1).mp hp
            rw [horder] at hp'
            cases hp'
        constructor
        · intro k
          simp [hcontent, insertKV, removeKey, keysOf]
        · rw [hcontent]
          exact nodup_keysOf_insertKV _ _ (by simp [keysOf])
        · simp
        · have h1 : (1 : Nat) ≤ max c.size 1 := le_max_right _ _
          simpa using h1
      | cons k0 os =>
        rw [put_fresh_ge_cons value hc' hlen horder]
        have hnd := h.nodup_order
        rw [horder] at hnd
        have hk0os := (List.nodup_cons.mp hnd).1
        have hosnd := (List.nodup_cons.mp hnd).2
        have hkos : key ∉ os := by
          rw [horder] at hko
          exact fun hh => hko (List.mem_cons_of_mem _ hh)
        have hk0mem : k0 ∈ keysOf c.cache_content := by
          refine (h.mem_iff k0).mpr ?_
          rw [horder]
          exact List.mem_cons_self _ _
        constructor
        · intro k
          by_cases hk : k = key
          · subst hk
            simp [mem_keysOf_insertKV]
          · simp only [mem_keysOf_insertKV, mem_keysOf_removeKey, hk,
              false_or, List.mem_append, List.mem_singleton, or_false]
            rw [h.mem_iff k, horder]
            constructor
            · rintro ⟨hmem1, hne⟩
              rcases List.mem_cons.mp hmem1 with rfl | hos
              · exact absurd rfl hne
              · exact hos
            · intro hos
              exact ⟨List.mem_cons_of_mem _ hos, fun hh => hk0os (hh ▸ hos)⟩
        · exact nodup_keysOf_insertKV _ _ (nodup_keysOf_removeKey _ h.nodup_content)
        · refine hosnd.append (List.nodup_singleton key) ?_
          intro a ha hb
          rw [List.mem_singleton] at hb
          subst hb
          exact hkos ha
        · have hlen2 := h.len_le
          rw [horder] at hlen2
          simpa using hlen2
    · rw [put_fresh_lt value hc' (by omega)]
      constructor
      · intro k
        by_cases hk : k = key
        · subst hk
          simp [mem_keysOf_insertKV]
        · simp [mem_keysOf_insertKV, hk, h.mem_iff k]
      · exact nodup_keysOf_insertKV _ _ h.nodup_content
      · refine h.nodup_order.append (List.nodup_singleton key) ?_
        intro a ha hb
        rw [List.mem_singleton] at hb
        subst hb
        exact hko ha
      · simp only [List.length_append, List.length_singleton]
        have hsz : c.cache_order.length < c.size := by omega
        have hmax : c.size ≤ max c.size 1 := le_max_left _ _
        omega

theorem inv_get {c : Cache K V} (h : Inv c) (key : K) : Inv (get c key).2 := by
  by_cases hc : containsKey c.cache_content key = true
  · rw [get_hit hc]
    exact inv_move h ((h.mem_iff key).mp (containsKey_iff_mem.mp hc))
  · have hc' : containsKey c.cache_content key = false := by simpa using hc
    rw [get_miss hc']
    exact h

theorem inv_applyOp {c : Cache K V} (h : Inv c) (op : Op K V) :
    Inv (applyOp c op) := by
  cases op with
  | put k v => exact inv_put h k v
  | get k => exact inv_get h k

theorem inv_run {c : Cache K V} (h : Inv c) (ops : List (Op K V)) :
    Inv (run c ops) := by
  induction ops generalizing c with
  | nil => exact h
  | cons op rest ih => exact ih (inv_applyOp h op)

theorem inv_reachable (cap : Nat) (ops : List (Op K V)) :
    Inv (run (Cache.new K V cap) ops) :=
  inv_run (inv_new cap) ops

theorem removeKey_cons_self {m : List (K × V)} {k : K} (v : V)
    (h : k ∉ keysOf m) : removeKey ((k, v) :: m) k = m := by
  have hstep : removeKey ((k, v) :: m) k = removeKey m k := by
    simp [removeKey, List.filter_cons]
  rw [hstep, removeKey_eq_self h]

/-! ### The size field is never written -/

theorem size_put (c : Cache K V) (key : K) (value : V) :
    (put c key value).size = c.size := by
  by_cases hc : containsKey c.cache_content key = true
  · rw [put_existing value hc]
  · have hc' : containsKey c.cache_content key = false := by simpa using hc
    by_cases hlen : c.cache_order.length ≥ c.size
    · cases horder : c.cache_order with
      | nil => rw [put_fresh_ge_nil value hc' hlen horder]
      | cons k0 os => rw [put_fresh_ge_cons value hc' hlen horder]
    · rw [put_fresh_lt value hc' (by omega)]

theorem size_get (c : Cache K V) (key : K) : (get c key).2.size = c.size := by
  by_cases hc : containsKey c.cache_content key = true
  · rw [get_hit hc]
  · have hc' : containsKey c.cache_content key = false := by simpa using hc
    rw [get_miss hc']

theorem size_applyOp (c : Cache K V) (op : Op K V) :
    (applyOp c op).size = c.size := by
  cases op with
  | put k v => exact size_put c k v
  | get k => exact size_get c k

theorem size_run (c : Cache K V) (ops : List (Op K V)) :
    (run c ops).size = c.size := by
  induction ops generalizing c with
  | nil => rfl
  | cons op rest ih =>
    calc (run (applyOp c op) rest).size = (applyOp c op).size := ih _
      _ = c.size := size_applyOp c op

/-! ### Sequences of fresh insertions below capacity -/

theorem putSeq_fresh (l : List (K × V)) (c : Cache K V)
    (hfresh : ∀ p ∈ l, lookupKey c.cache_content p.1 = none)
    (hnd : (l.map Prod.fst).Nodup)
    (hlen : c.cache_order.length + l.length ≤ c.size) :
    putSeq c l = { c with cache_content := c.cache_content ++ l,
                          cache_order := c.cache_order ++ l.map Prod.fst } := by
  induction l generalizing c with
  | nil => simp [putSeq]
  | cons p rest ih =>
    obtain ⟨k, v⟩ := p
    have hck : containsKey c.cache_content k = false := by
      simp [containsKey, hfresh (k, v) (List.mem_cons_self _ _)]
    have hkm : k ∉ keysOf c.cache_content := containsKey_false_iff.mp hck
    have hlt : c.cache_order.length < c.size := by
      simp only [List.length_cons] at hlen
      omega
    have hstep : putSeq c ((k, v) :: rest) = putSeq (put c k v) rest := rfl
    rw [hstep, put_fresh_lt v hck hlt, insertKV_fresh v hkm]
    have hndrest : (rest.map Prod.fst).Nodup := (List.nodup_cons.mp hnd).2
    have hknotin : ∀ q ∈ rest, q.1 ≠ k := by
      intro q hq hqk
      exact (List.nodup_cons.mp hnd).1 (hqk ▸ List.mem_map.mpr ⟨q, hq, rfl⟩)
    rw [ih]
    · simp
    · intro q hq
      rw [lookupKey_append_right (hfresh q (List.mem_cons_of_mem _ hq))]
      simp [lookupKey, Ne.symm (hknotin q hq)]
    · exact hndrest
    · show (c.cache_order ++ [k]).length + rest.length ≤ c.size
      have happ : (c.cache_order ++ [k]).length = c.cache_order.length + 1 := by
        simp
      simp only [List.length_cons] at hlen
      omega

/-! ### Behaviour of a size-0 cache -/

theorem put_cap0 {c : Cache K V} (hsz : c.size = 0)
    (hshape : c.cache_content = [] ∧ c.cache_order = [] ∨
      ∃ k1 v1, c.cache_content = [(k1, v1)] ∧ c.cache_order = [k1])
    (k : K) (v : V) :
    (put c k v).size = 0 ∧ (put c k v).cache_content = [(k, v)] ∧
    (put c k v).cache_order = [k] := by
  rcases hshape with ⟨hm, ho⟩ | ⟨k1, v1, hm, ho⟩
  · have hc : containsKey c.cache_content k = false := by
      simp [containsKey, hm, lookupKey]
    rw [put_fresh_ge_nil v hc (by simp [ho, hsz]) ho]
    refine ⟨hsz, ?_, rfl⟩
    simp [insertKV, removeKey, hm]
  · by_cases hk : k1 = k
    · subst hk
      have hc : containsKey c.cache_content k1 = true := by
        simp [containsKey, hm, lookupKey]
      rw [put_existing v hc]
      refine ⟨hsz, ?_, ?_⟩
      · simp [insertKV, removeKey, hm, List.filter_cons]
      · simp [ho, List.filter_cons]
    · have hc : containsKey c.cache_content k = false := by
        simp [containsKey, hm, lookupKey, hk]
      rw [put_fresh_ge_cons v hc (by simp [ho, hsz]) ho]
      refine ⟨hsz, ?_, rfl⟩
      simp [insertKV, removeKey, hm, List.filter_cons, hk]

theorem putSeq_cap0 (l : List (K × V)) (c : Cache K V) (hsz : c.size = 0)
    (hshape : c.cache_content = [] ∧ c.cache_order = [] ∨
      ∃ k1 v1, c.cache_content = [(k1, v1)] ∧ c.cache_order = [k1]) :
    (putSeq c l).size = 0 ∧
    ((putSeq c l).cache_content = [] ∧ (putSeq c l).cache_order = [] ∨
      ∃ k1 v1, (putSeq c l).cache_content = [(k1, v1)] ∧
        (putSeq c l).cache_order = [k1]) := by
  induction l generalizing c with
  | nil => exact ⟨hsz, hshape⟩
  | cons p rest ih =>
    obtain ⟨k, v⟩ := p
    have hstep : putSeq c ((k, v) :: rest) = putSeq (put c k v) rest := rfl
    rw [hstep]
    have hp := put_cap0 hsz hshape k v
    exact ih (put c k v) hp.1 (Or.inr ⟨k, v, hp.2.1, hp.2.2⟩)

theorem putSeq_cap0_last (l : List (K × V)) (k : K) (v : V) :
    (putSeq (Cache.new K V 0) (l ++ [(k, v)])).cache_content = [(k, v)] ∧
    (putSeq (Cache.new K V 0) (l ++ [(k, v)])).cache_order = [k] := by
  have hbase := putSeq_cap0 l (Cache.new K V 0) rfl (Or.inl ⟨rfl, rfl⟩)
  have hstep : putSeq (Cache.new K V 0) (l ++ [(k, v)]) =
      put (putSeq (Cache.new K V 0) l) k v := by
    unfold putSeq
    rw [List.foldl_append]
    rfl
  rw [hstep]
  have hp := put_cap0 hbase.1 hbase.2 k v
  exact ⟨hp.2.1, hp.2.2⟩

/-! ### Claim theorems -/

/-- C1: for every cache constructed with capacity ≥ 1 and every sequence
of `put` and `get` calls, the number of entries in the content map is at
most the capacity after every call. -/
theorem capacity_bound (cap : Nat) (hcap : 1 ≤ cap) (ops : List (Op K V)) :
    (run (Cache.new K V cap) ops).cache_content.length ≤ cap := by
  have h := inv_reachable (K := K) (V := V) cap ops
  have h1 := inv_content_length h
  have h2 := h.len_le
  rw [size_run] at h2
  have hsz : (Cache.new K V cap).size = cap := rfl
  rw [hsz, max_eq_left hcap] at h2
  omega

theorem capacity_bound_witness :
    (run (Cache.new Nat Nat 2)
      [Op.put 1 10, Op.put 2 20, Op.put 3 30]).cache_content.length ≤ 2 :=
  capacity_bound 2 (by decide) [Op.put 1 10, Op.put 2 20, Op.put 3 30]

/-- C2: in every reachable state, the content map and the order sequence
hold exactly the same set of keys, the order has no duplicate keys, and
the two structures have equal cardinality. -/
theorem content_order_consistency (cap : Nat) (ops : List (Op K V)) :
    (∀ k, k ∈ keysOf (run (Cache.new K V cap) ops).cache_content ↔
        k ∈ (run (Cache.new K V cap) ops).cache_order) ∧
    (run (Cache.new K V cap) ops).cache_order.Nodup ∧
    (run (Cache.new K V cap) ops).cache_content.length =
      (run (Cache.new K V cap) ops).cache_order.length := by
  have h := inv_reachable (K := K) (V := V) cap ops
  exact ⟨h.mem_iff, h.nodup_order, inv_content_length h⟩

/-- C6: `get` returns exactly the value associated to the key in the
content map when present, and `none` when the key is not cached; the
function is total, so absence is an ordinary return value. -/
theorem get_returns_lookup (c : Cache K V) (key : K) :
    (get c key).1 = lookupKey c.cache_content key := by
  by_cases hc : containsKey c.cache_content key = true
  · rw [get_hit hc]
  · have hc' : containsKey c.cache_content key = false := by simpa using hc
    rw [get_miss hc']
    exact (lookupKey_eq_none.mpr (containsKey_false_iff.mp hc')).symm

/-- C8: the capacity is fixed at construction and never mutated: after
any sequence of `put` and `get` calls the `size` field still equals the
value passed to `new`. -/
theorem capacity_never_mutated (cap : Nat) (ops : List (Op K V)) :
    (run (Cache.new K V cap) ops).size = cap :=
  size_run (Cache.new K V cap) ops

/-- C10: `get` never changes the content map — every key keeps exactly
the same binding whether the lookup hits or misses — and never changes
the size; only the order sequence may change. -/
theorem get_frame_content (c : Cache K V) (key : K) :
    (get c key).2.cache_content = c.cache_content ∧
    (∀ k, lookupKey (get c key).2.cache_content k =
      lookupKey c.cache_content k) ∧
    (get c key).2.size = c.size := by
  by_cases hc : containsKey c.cache_content key = true
  · rw [get_hit hc]
    exact ⟨rfl, fun k => rfl, rfl⟩
  · have hc' : containsKey c.cache_content key = false := by simpa using hc
    rw [get_miss hc']
    exact ⟨rfl, fun k => rfl, rfl⟩

/-- C4: a `get` on a present key moves that key to the back of the order
sequence leaving the relative order of the other keys unchanged (and
touches neither content nor size); a `get` on an absent key leaves the
whole state unchanged. -/
theorem get_recency (c : Cache K V) (key : K) :
    (containsKey c.cache_content key = true →
      (get c key).2.cache_order =
        c.cache_order.filter (fun k => decide (k ≠ key)) ++ [key] ∧
      (get c key).2.cache_content = c.cache_content ∧
      (get c key).2.size = c.size) ∧
    (containsKey c.cache_content key = false → (get c key).2 = c) := by
  constructor
  · intro hc
    rw [get_hit hc]
    exact ⟨rfl, rfl, rfl⟩
  · intro hc
    rw [get_miss hc]

theorem get_recency_witness :
    (get (put (Cache.new Nat Nat 2) 1 10) 1).2.cache_order = [1] ∧
    (get (put (Cache.new Nat Nat 2) 1 10) 2).2 =
      put (Cache.new Nat Nat 2) 1 10 := by
  constructor
  · rw [((get_recency (put (Cache.new Nat Nat 2) 1 10) 1).1 (by decide)).1]
    decide
  · exact (get_recency (put (Cache.new Nat Nat 2) 1 10) 2).2 (by decide)

/-- C5: in a reachable state where the key is already present,
`put key value` overwrites the stored value, leaves every other binding
and the entry count unchanged (no eviction), and moves the key to the
back of the order sequence. -/
theorem put_update_in_place (cap : Nat) (ops : List (Op K V))
    (key : K) (value : V)
    (hc : containsKey (run (Cache.new K V cap) ops).cache_content key = true) :
    lookupKey (put (run (Cache.new K V cap) ops) key value).cache_content key =
      some value ∧
    (put (run (Cache.new K V cap) ops) key value).cache_content.length =
      (run (Cache.new K V cap) ops).cache_content.length ∧
    (∀ k, k ≠ key →
      lookupKey (put (run (Cache.new K V cap) ops) key value).cache_content k =
        lookupKey (run (Cache.new K V cap) ops).cache_content k) ∧
    (put (run (Cache.new K V cap) ops) key value).cache_order =
      (run (Cache.new K V cap) ops).cache_order.filter
        (fun k => decide (k ≠ key)) ++ [key] := by
  have h := inv_reachable (K := K) (V := V) cap ops
  have hkm : key ∈ keysOf (run (Cache.new K V cap) ops).cache_content :=
    containsKey_iff_mem.mp hc
  rw [put_existing value hc]
  refine ⟨lookupKey_insertKV_self _ _ _, ?_, fun k hk => lookupKey_insertKV_ne hk, rfl⟩
  have hlen := length_removeKey_of_mem h.nodup_content hkm
  show (insertKV _ key value).length = _
  unfold insertKV
  simp only [List.length_append, List.length_singleton]
  omega

theorem put_update_in_place_witness :
    lookupKey (put (run (Cache.new Nat Nat 1) [Op.put 1 10]) 1 11).cache_content 1 =
      some 11 ∧
    (put (run (Cache.new Nat Nat 1) [Op.put 1 10]) 1 11).cache_content.length =
      (run (Cache.new Nat Nat 1) [Op.put 1 10]).cache_content.length := by
  have h := put_update_in_place 1 [Op.put 1 10] 1 11 (by decide)
  exact ⟨h.1, h.2.1⟩

theorem putSeq_evicts_first (cap : Nat) (p0 q : K × V) (mid : List (K × V))
    (hnd : ((p0 :: (mid ++ [q])).map Prod.fst).Nodup)
    (hmidlen : mid.length + 1 = cap) :
    (putSeq (Cache.new K V cap) (p0 :: (mid ++ [q]))).cache_content =
      mid ++ [q] := by
  obtain ⟨k0, v0⟩ := p0
  obtain ⟨kq, vq⟩ := q
  have hnd1 : k0 ∉ (mid.map Prod.fst ++ [kq]) ∧ (mid.map Prod.fst ++ [kq]).Nodup := by
    have hmap : ((k0, v0) :: (mid ++ [(kq, vq)])).map Prod.fst =
        k0 :: (mid.map Prod.fst ++ [kq]) := by simp
    rw [hmap] at hnd
    exact List.nodup_cons.mp hnd
  have hk0mid : k0 ∉ mid.map Prod.fst := fun h => hnd1.1 (List.mem_append_left _ h)
  have hk0q : k0 ≠ kq := fun h => hnd1.1 (List.mem_append_right _ (by simp [h]))
  have hmidnd : (mid.map Prod.fst).Nodup := (List.nodup_append.mp hnd1.2).1
  have hqmid : kq ∉ mid.map Prod.fst := fun h =>
    (List.nodup_append.mp hnd1.2).2.2 h (by simp)
  have hfront := putSeq_fresh ((k0, v0) :: mid) (Cache.new K V cap)
      (fun p _ => rfl)
      (by
        simp only [List.map_cons]
        exact List.nodup_cons.mpr ⟨hk0mid, hmidnd⟩)
      (by
        simp [Cache.new]
        omega)
  have hsplit : putSeq (Cache.new K V cap) ((k0, v0) :: (mid ++ [(kq, vq)])) =
      put (putSeq (Cache.new K V cap) ((k0, v0) :: mid)) kq vq := by
    show putSeq (Cache.new K V cap) (((k0, v0) :: mid) ++ [(kq, vq)]) = _
    unfold putSeq
    rw [List.foldl_append]
    rfl
  rw [hsplit, hfront]
  have hcq : containsKey ((Cache.new K V cap).cache_content ++ ((k0, v0) :: mid)) kq
      = false := by
    apply containsKey_false_iff.mpr
    intro hmem
    rw [keysOf] at hmem
    simp only [Cache.new, List.nil_append, List.map_cons, List.mem_cons] at hmem
    rcases hmem with h | h
    · exact hk0q h.symm
    · exact hqmid h
  have hlenge : ((Cache.new K V cap).cache_order ++
        ((k0, v0) :: mid).map Prod.fst).length ≥ cap := by
    simp [Cache.new]
    omega
  have horder : (Cache.new K V cap).cache_order ++ ((k0, v0) :: mid).map Prod.fst
      = k0 :: mid.map Prod.fst := by
    simp [Cache.new]
  rw [put_fresh_ge_cons vq hcq hlenge horder]
  show insertKV (removeKey ((Cache.new K V cap).cache_content ++
      ((k0, v0) :: mid)) k0) kq vq = mid ++ [(kq, vq)]
  have hnilapp : (Cache.new K V cap).cache_content ++ ((k0, v0) :: mid) =
      (k0, v0) :: mid := rfl
  rw [hnilapp, removeKey_cons_self v0 hk0mid, insertKV_fresh vq hqmid]

/-- C3: inserting capacity+1 distinct keys by `put` with no intervening
`get` evicts exactly the first-inserted key: the first key is absent and
all later keys are present with their values.  In general, a `put` of a
fresh key in a reachable state removes no entry when below capacity, and
removes exactly the entry at the front of the order when at capacity. -/
theorem lru_eviction :
    (∀ (cap : Nat), 1 ≤ cap → ∀ (p0 : K × V) (rest : List (K × V)),
      ((p0 :: rest).map Prod.fst).Nodup → rest.length = cap →
      lookupKey (putSeq (Cache.new K V cap) (p0 :: rest)).cache_content p0.1 =
        none ∧
      (∀ p ∈ rest,
        lookupKey (putSeq (Cache.new K V cap) (p0 :: rest)).cache_content p.1 =
          some p.2)) ∧
    (∀ (cap : Nat) (ops : List (Op K V)) (key : K) (value : V),
      containsKey (run (Cache.new K V cap) ops).cache_content key = false →
      ((run (Cache.new K V cap) ops).cache_order.length < cap →
        (put (run (Cache.new K V cap) ops) key value).cache_content.length =
          (run (Cache.new K V cap) ops).cache_content.length + 1 ∧
        (∀ k, k ≠ key →
          lookupKey
              (put (run (Cache.new K V cap) ops) key value).cache_content k =
            lookupKey (run (Cache.new K V cap) ops).cache_content k)) ∧
      (1 ≤ cap → cap ≤ (run (Cache.new K V cap) ops).cache_order.length →
        ∃ k0 os, (run (Cache.new K V cap) ops).cache_order = k0 :: os ∧
          lookupKey
              (put (run (Cache.new K V cap) ops) key value).cache_content k0 =
            none ∧
          (∀ k, k ≠ k0 → k ≠ key →
            lookupKey
                (put (run (Cache.new K V cap) ops) key value).cache_content k =
              lookupKey (run (Cache.new K V cap) ops).cache_content k) ∧
          (put (run (Cache.new K V cap) ops) key value).cache_content.length =
            (run (Cache.new K V cap) ops).cache_content.length)) := by
  constructor
  · intro cap hcap p0 rest hnd hrestlen
    have hne : rest ≠ [] := by
      intro h
      rw [h] at hrestlen
      simp at hrestlen
      omega
    have hdec : rest.dropLast ++ [rest.getLast hne] = rest :=
      List.dropLast_append_getLast hne
    have hmidlen : rest.dropLast.length + 1 = cap := by
      have : (rest.dropLast ++ [rest.getLast hne]).length = cap := by
        rw [hdec]
        exact hrestlen
      simpa using this
    rw [← hdec] at hnd ⊢
    have hcontent := putSeq_evicts_first cap p0 (rest.getLast hne)
      rest.dropLast hnd hmidlen
    rw [hcontent]
    have hmap : ((p0 :: (rest.dropLast ++ [rest.getLast hne])).map Prod.fst) =
        p0.1 :: (rest.dropLast.map Prod.fst ++ [(rest.getLast hne).1]) := by
      simp
    rw [hmap] at hnd
    have hnd1 := List.nodup_cons.mp hnd
    constructor
    · apply lookupKey_eq_none.mpr
      intro hmem
      rw [keysOf, List.map_append] at hmem
      exact hnd1.1 (by simpa using hmem)
    · intro p hp
      apply lookupKey_of_mem
      · rw [keysOf, List.map_append]
        simpa using hnd1.2
      · simpa using hp
  · intro cap ops key value hc
    have h := inv_reachable (K := K) (V := V) cap ops
    have hsz : (run (Cache.new K V cap) ops).size = cap := size_run _ _
    have hkm : key ∉ keysOf (run (Cache.new K V cap) ops).cache_content :=
      containsKey_false_iff.mp hc
    constructor
    · intro hlt
      rw [put_fresh_lt value hc (by omega)]
      constructor
      · show (insertKV _ key value).length = _ + 1
        rw [insertKV_fresh value hkm]
        simp
      · intro k hk
        exact lookupKey_insertKV_ne hk
    · intro hcap hge
      cases horder : (run (Cache.new K V cap) ops).cache_order with
      | nil =>
        rw [horder] at hge
        simp at hge
        omega
      | cons k0 os =>
        have hk0mem : k0 ∈ keysOf (run (Cache.new K V cap) ops).cache_content := by
          refine (h.mem_iff k0).mpr ?_
          rw [horder]
          exact List.mem_cons_self _ _
        have hkey0 : key ≠ k0 := fun hh => hkm (hh ▸ hk0mem)
        have hkrm : key ∉ keysOf (removeKey
            (run (Cache.new K V cap) ops).cache_content k0) := by
          rw [mem_keysOf_removeKey]
          exact fun hh => hkm hh.1
        rw [put_fresh_ge_cons value hc (by omega) horder]
        refine ⟨k0, os, rfl, ?_, ?_, ?_⟩
        · show lookupKey (insertKV _ key value) k0 = none
          rw [lookupKey_insertKV_ne (Ne.symm hkey0)]
          exact lookupKey_removeKey_self _ _
        · intro k hk0 hkey
          show lookupKey (insertKV _ key value) k = _
          rw [lookupKey_insertKV_ne hkey]
          exact lookupKey_removeKey_ne hk0
        · show (insertKV _ key value).length = _
          rw [insertKV_fresh value hkrm]
          have hlen := length_removeKey_of_mem h.nodup_content hk0mem
          simp only [List.length_append, List.length_singleton]
          omega

theorem lru_eviction_witness :
    (lookupKey (putSeq (Cache.new Nat Nat 1)
        ((1, 10) :: [(2, 20)])).cache_content 1 = none) ∧
    ((put (run (Cache.new Nat Nat 2) [Op.put 1 10]) 2 20).cache_content.length =
      (run (Cache.new Nat Nat 2) [Op.put 1 10]).cache_content.length + 1) ∧
    (∃ k0 os, (run (Cache.new Nat Nat 1) [Op.put 1 10]).cache_order = k0 :: os ∧
      lookupKey
          (put (run (Cache.new Nat Nat 1) [Op.put 1 10]) 2 20).cache_content k0 =
        none ∧
      (∀ k, k ≠ k0 → k ≠ 2 →
        lookupKey
            (put (run (Cache.new Nat Nat 1) [Op.put 1 10]) 2 20).cache_content k =
          lookupKey (run (Cache.new Nat Nat 1) [Op.put 1 10]).cache_content k) ∧
      (put (run (Cache.new Nat Nat 1) [Op.put 1 10]) 2 20).cache_content.length =
        (run (Cache.new Nat Nat 1) [Op.put 1 10]).cache_content.length) := by
  refine ⟨?_, ?_, ?_⟩
  · exact (lru_eviction.1 1 (by decide) (1, 10) [(2, 20)] (by decide)
      (by decide)).1
  · exact ((lru_eviction.2 2 [Op.put 1 10] 2 20 (by decide)).1 (by decide)).1
  · exact (lru_eviction.2 1 [Op.put 1 10] 2 20 (by decide)).2 (by decide)
      (by decide)

/-- C7 counterexample: a capacity-0 cache is not always-miss and does
store entries — after `put 1 10` on a fresh capacity-0 cache, `get 1`
returns `some 10` and the content map holds one entry, not zero. -/
theorem cap0_not_always_miss :
    (get (put (Cache.new Nat Nat 0) 1 10) 1).1 = some 10 ∧
    (put (Cache.new Nat Nat 0) 1 10).cache_content.length = 1 := by
  decide

/-- C7 (amended): a cache constructed with capacity 0 never crashes, but
it is not an always-miss, never-store cache: after any sequence of `put`
calls it retains exactly the most recent entry — `get` of the last-put
key hits with its value, while `get` of any other key returns absence,
and the content map holds that single entry rather than being empty. -/
theorem cap0_retains_most_recent (l : List (K × V)) (k : K) (v : V)
    (k2 : K) (hk2 : k2 ≠ k) :
    (putSeq (Cache.new K V 0) (l ++ [(k, v)])).cache_content = [(k, v)] ∧
    (get (putSeq (Cache.new K V 0) (l ++ [(k, v)])) k2).1 = none ∧
    (get (putSeq (Cache.new K V 0) (l ++ [(k, v)])) k).1 = some v := by
  obtain ⟨hm, ho⟩ := putSeq_cap0_last l k v
  refine ⟨hm, ?_, ?_⟩
  · have hc2 : containsKey
        (putSeq (Cache.new K V 0) (l ++ [(k, v)])).cache_content k2 = false := by
      rw [hm]
      simp [containsKey, lookupKey, hk2, Ne.symm hk2]
    rw [get_miss hc2]
  · have hck : containsKey
        (putSeq (Cache.new K V 0) (l ++ [(k, v)])).cache_content k = true := by
      rw [hm]
      simp [containsKey, lookupKey]
    rw [get_hit hck, hm]
    simp [lookupKey]

theorem cap0_retains_most_recent_witness :
    (putSeq (Cache.new Nat Nat 0) ([(1, 10)] ++ [(2, 20)])).cache_content =
      [(2, 20)] ∧
    (get (putSeq (Cache.new Nat Nat 0) ([(1, 10)] ++ [(2, 20)])) 1).1 = none ∧
    (get (putSeq (Cache.new Nat Nat 0) ([(1, 10)] ++ [(2, 20)])) 2).1 =
      some 20 :=
  cap0_retains_most_recent [(1, 10)] 2 20 1 (by decide)

/-- C9: on a capacity-0 cache every `put` leaves exactly one resident
entry — the pair just inserted, its key alone in the order sequence —
and an immediately following `get` of that key returns its value; so
after any non-empty sequence of puts the occupancy is 1, not 0. -/
theorem cap0_occupancy_one (l : List (K × V)) (k : K) (v : V) :
    (putSeq (Cache.new K V 0) (l ++ [(k, v)])).cache_content.length = 1 ∧
    lookupKey (putSeq (Cache.new K V 0) (l ++ [(k, v)])).cache_content k =
      some v ∧
    (putSeq (Cache.new K V 0) (l ++ [(k, v)])).cache_order = [k] ∧
    (get (putSeq (Cache.new K V 0) (l ++ [(k, v)])) k).1 = some v := by
  obtain ⟨hm, ho⟩ := putSeq_cap0_last l k v
  have hck : containsKey
      (putSeq (Cache.new K V 0) (l ++ [(k, v)])).cache_content k = true := by
    rw [hm]
    simp [containsKey, lookupKey]
  refine ⟨by rw [hm]; rfl, by rw [hm]; simp [lookupKey], ho, ?_⟩
  rw [get_hit hck, hm]
  simp [lookupKey]

end LruCache
